import Mathlib

/-!
Shallow embedding of `src/custom_likelihoods.py` (class `Dirichlet`,
a GPflow `MonteCarloLikelihood`) over the real numbers.

Tensors with a trailing category axis of size `K` and a leading batch axis of
size `n` are embedded as functions `Fin n → Fin K → ℝ`; `tf.reduce_sum`
with `axis=-1` becomes a sum over the `Fin K` index.  The TensorFlow
primitives the file calls (`tf.math.xlogy`, `tf.math.lbeta`, `tf.exp`) are
embedded by their documented real-valued meaning, with `Real.log`,
`Real.exp` and `Real.Gamma` standing for the corresponding scalar
functions.
-/

noncomputable section

namespace DirichletSVGP

/-- `tf.math.xlogy x y`: `0` whenever `x = 0` (even at `y = 0`), and
`x * log y` otherwise. -/
def xlogy (x y : ℝ) : ℝ := if x = 0 then 0 else x * Real.log y

/-- `lgamma`: the log-Gamma function, `log Γ(x)`. -/
def lgamma (x : ℝ) : ℝ := Real.log (Real.Gamma x)

/-- `tf.math.lbeta α`: the multivariate log-beta function over the last axis,
`Σ_k lgamma (α k) - lgamma (Σ_k α k)`. -/
def lbeta {K : ℕ} (α : Fin K → ℝ) : ℝ :=
  (∑ k, lgamma (α k)) - lgamma (∑ k, α k)

/-- The `Dirichlet` likelihood object: the constructor stores the inverse
link function and the Monte Carlo sample count attribute. -/
structure Dirichlet where
  invlink : ℝ → ℝ
  num_monte_carlo_points : ℕ

/-- `Dirichlet.__init__`: stores the supplied `invlink` unchanged and sets
`num_monte_carlo_points` to the constant `100`. -/
def Dirichlet.init (invlink : ℝ → ℝ) : Dirichlet :=
  { invlink := invlink, num_monte_carlo_points := 100 }

/-- The default construction `Dirichlet()`: the `invlink` argument defaults
to `tf.exp`. -/
def Dirichlet.mkDefault : Dirichlet := Dirichlet.init Real.exp

/-- Static method `Dirichlet._log_prob(concentration, y)`:
`tf.reduce_sum(tf.math.xlogy(concentration - 1., y), axis=-1)
 - tf.math.lbeta(concentration)`, one scalar per row. -/
def Dirichlet.log_prob_static {n K : ℕ} (concentration y : Fin n → Fin K → ℝ) :
    Fin n → ℝ :=
  fun i => (∑ k, xlogy (concentration i k - 1) (y i k)) - lbeta (concentration i)

/-- `Dirichlet.log_prob(F, Y)`: `self._log_prob(self.invlink(F), Y)` with the
inverse link applied elementwise. -/
def Dirichlet.log_prob (L : Dirichlet) {n K : ℕ} (F Y : Fin n → Fin K → ℝ) :
    Fin n → ℝ :=
  Dirichlet.log_prob_static (fun i k => L.invlink (F i k)) Y

/-- `Dirichlet.conditional_mean(F)`: `concentration / reduce_sum(concentration,
axis=-1, keepdims=True)` with `concentration = self.invlink(F)`. -/
def Dirichlet.conditional_mean (L : Dirichlet) {n K : ℕ} (F : Fin n → Fin K → ℝ) :
    Fin n → Fin K → ℝ :=
  fun i k => L.invlink (F i k) / ∑ j, L.invlink (F i j)

/-- `Dirichlet.conditional_variance(F)`: with `concentration = self.invlink(F)`
and `c_sum` its row sum, returns
`concentration * (c_sum - concentration) / (c_sum ** 2 * (c_sum + 1))`. -/
def Dirichlet.conditional_variance (L : Dirichlet) {n K : ℕ} (F : Fin n → Fin K → ℝ) :
    Fin n → Fin K → ℝ :=
  fun i k =>
    L.invlink (F i k) * ((∑ j, L.invlink (F i j)) - L.invlink (F i k)) /
      ((∑ j, L.invlink (F i j)) ^ 2 * ((∑ j, L.invlink (F i j)) + 1))

/-- The seed actually consumed by `tf.random.gamma`: the explicit `seed`
argument when one is supplied, otherwise the ambient generator state. -/
def resolve_seed (state : ℕ) (seed : Option ℕ) : ℕ := seed.getD state

/-- Static method `Dirichlet._sample_dir(concentration, n, seed)`: draws the
`n × K` table of independent `Gamma(shape = α_k, rate = 1)` variates and
divides each row by its sum.  The draw `tf.random.gamma` is framework code
outside this repository; following the claim it is modelled as an abstract
function `gamma_sample` of the concentration vector and the consumed seed,
where an unseeded call consumes the ambient generator state instead
(`resolve_seed`). -/
def Dirichlet.sample_dir {n K : ℕ}
    (gamma_sample : (Fin K → ℝ) → ℕ → Fin n → Fin K → ℝ)
    (concentration : Fin K → ℝ) (state : ℕ) (seed : Option ℕ) :
    Fin n → Fin K → ℝ :=
  fun i k =>
    gamma_sample concentration (resolve_seed state seed) i k /
      ∑ j, gamma_sample concentration (resolve_seed state seed) i j

/-- Reference multivariate Dirichlet log-density, written from the spec for
the refinement claim C1: the log of the textbook density
`Γ(Σ_k α_k) / Π_k Γ(α_k) · Π_k y_k ^ (α_k − 1)`. -/
def dirichlet_log_pdf_ref {K : ℕ} (α y : Fin K → ℝ) : ℝ :=
  Real.log ((Real.Gamma (∑ k, α k) / ∏ k, Real.Gamma (α k)) *
    ∏ k, y k ^ (α k - 1))

/-- In the real-valued embedding (where `Real.log 0 = 0`), `xlogy` agrees
with the plain product everywhere. -/
theorem xlogy_eq_mul_log (x y : ℝ) : xlogy x y = x * Real.log y := by
  unfold xlogy
  split <;> simp [*]

theorem Gamma_ofNat_three : Real.Gamma 3 = 2 := by
  have h : ((2:ℕ):ℝ) + 1 = 3 := by norm_num
  have h2 := Real.Gamma_nat_eq_factorial 2
  rw [h] at h2
  rw [h2]
  norm_num

theorem Gamma_ofNat_four : Real.Gamma 4 = 6 := by
  have h : ((3:ℕ):ℝ) + 1 = 4 := by norm_num
  have h2 := Real.Gamma_nat_eq_factorial 3
  rw [h] at h2
  rw [h2]
  norm_num [Nat.factorial]

theorem Gamma_ofNat_two : Real.Gamma 2 = 1 := by
  have h : ((1:ℕ):ℝ) + 1 = 2 := by norm_num
  have h2 := Real.Gamma_nat_eq_factorial 1
  rw [h] at h2
  rw [h2]
  norm_num

/-- C6: construction stores the link function unchanged (default: the
exponential), always sets the Monte Carlo sample count to the constant 100,
and no operation afterwards modifies or depends on that attribute: the three
operations return the same values whatever the attribute holds. -/
theorem C6_construction (f : ℝ → ℝ) (m : ℕ) {n K : ℕ} (F Y : Fin n → Fin K → ℝ) :
    (Dirichlet.init f).invlink = f ∧
    (Dirichlet.init f).num_monte_carlo_points = 100 ∧
    Dirichlet.mkDefault = Dirichlet.init Real.exp ∧
    (Dirichlet.mk f m).log_prob F Y = (Dirichlet.init f).log_prob F Y ∧
    (Dirichlet.mk f m).conditional_mean F = (Dirichlet.init f).conditional_mean F ∧
    (Dirichlet.mk f m).conditional_variance F = (Dirichlet.init f).conditional_variance F :=
  ⟨rfl, rfl, rfl, rfl, rfl, rfl⟩

/-- C5: with the default exponential link and K = 3, the input F = [0,0,0]
yields concentration α = [1,1,1], conditional mean [1/3,1/3,1/3], and
log_prob at Y = [1/3,1/3,1/3] equal to log 2 = log (Γ(3)/Γ(1)^3). -/
theorem C5_uniform_scenario :
    (∀ i k, Dirichlet.mkDefault.invlink ((fun (_ : Fin 1) (_ : Fin 3) => (0:ℝ)) i k) = 1) ∧
    Dirichlet.mkDefault.conditional_mean (fun (_ : Fin 1) (_ : Fin 3) => (0:ℝ)) =
      (fun _ _ => 1 / 3) ∧
    Dirichlet.mkDefault.log_prob (fun (_ : Fin 1) (_ : Fin 3) => (0:ℝ))
      (fun _ _ => 1 / 3) = (fun _ => Real.log 2) ∧
    Real.log 2 = Real.log (Real.Gamma 3 / Real.Gamma 1 ^ 3) := by
  refine ⟨?_, ?_, ?_, ?_⟩
  · intro i k
    simp [Dirichlet.mkDefault, Dirichlet.init]
  · funext i k
    simp [Dirichlet.mkDefault, Dirichlet.init, Dirichlet.conditional_mean,
      Finset.sum_const, Finset.card_univ]
  · funext i
    simp only [Dirichlet.mkDefault, Dirichlet.init, Dirichlet.log_prob,
      Dirichlet.log_prob_static, Real.exp_zero, lbeta, lgamma, xlogy,
      Finset.sum_const, Finset.card_univ, Fintype.card_fin, nsmul_eq_mul]
    norm_num [Real.Gamma_one, Gamma_ofNat_three]
  · rw [Real.Gamma_one, Gamma_ofNat_three]
    norm_num

/-- C4: conditional_variance returns, elementwise,
α_k (S − α_k) / (S² (S + 1)) with α = invlink(F) and S the row sum; with the
default exponential link every entry is non-negative for any F, and at K = 2,
F = [log 2, log 2] (α = [2,2]) every entry equals 1/20. -/
theorem C4_conditional_variance :
    (∀ (n K : ℕ) (L : Dirichlet) (F : Fin n → Fin K → ℝ) (i : Fin n) (k : Fin K),
      L.conditional_variance F i k =
        L.invlink (F i k) * ((∑ j, L.invlink (F i j)) - L.invlink (F i k)) /
          ((∑ j, L.invlink (F i j)) ^ 2 * ((∑ j, L.invlink (F i j)) + 1))) ∧
    (∀ (n K : ℕ) (F : Fin n → Fin K → ℝ) (i : Fin n) (k : Fin K),
      0 ≤ Dirichlet.mkDefault.conditional_variance F i k) ∧
    Dirichlet.mkDefault.conditional_variance
        (fun (_ : Fin 1) (_ : Fin 2) => Real.log 2) = (fun _ _ => 1 / 20) := by
  refine ⟨fun n K L F i k => rfl, ?_, ?_⟩
  · intro n K F i k
    simp only [Dirichlet.mkDefault, Dirichlet.init, Dirichlet.conditional_variance]
    have hpos : ∀ j : Fin K, (0:ℝ) < Real.exp (F i j) := fun j => Real.exp_pos _
    have hS : (0:ℝ) < ∑ j, Real.exp (F i j) :=
      Finset.sum_pos (fun j _ => hpos j) ⟨k, Finset.mem_univ k⟩
    have hrest : (0:ℝ) ≤ (∑ j, Real.exp (F i j)) - Real.exp (F i k) := by
      rw [← Finset.add_sum_erase _ _ (Finset.mem_univ k)]
      have : (0:ℝ) ≤ ∑ j ∈ Finset.univ.erase k, Real.exp (F i j) :=
        Finset.sum_nonneg (fun j _ => le_of_lt (hpos j))
      linarith
    have hden : (0:ℝ) ≤ (∑ j, Real.exp (F i j)) ^ 2 * ((∑ j, Real.exp (F i j)) + 1) := by
      positivity
    exact div_nonneg (mul_nonneg (le_of_lt (hpos k)) hrest) hden
  · funext i k
    simp only [Dirichlet.mkDefault, Dirichlet.init, Dirichlet.conditional_variance,
      Real.exp_log (by norm_num : (0:ℝ) < 2), Finset.sum_const, Finset.card_univ,
      Fintype.card_fin, nsmul_eq_mul]
    norm_num

/-- C9: the two moment operations are linked coordinate-wise by
variance = mean · (1 − mean) / (S + 1), with S the row sum of the
concentration, for the default exponential link. -/
theorem C9_variance_from_mean {n K : ℕ} (F : Fin n → Fin K → ℝ) (i : Fin n) (k : Fin K) :
    Dirichlet.mkDefault.conditional_variance F i k =
      Dirichlet.mkDefault.conditional_mean F i k *
        (1 - Dirichlet.mkDefault.conditional_mean F i k) /
        ((∑ j, Dirichlet.mkDefault.invlink (F i j)) + 1) := by
  simp only [Dirichlet.mkDefault, Dirichlet.init, Dirichlet.conditional_variance,
    Dirichlet.conditional_mean]
  have hS : (0:ℝ) < ∑ j, Real.exp (F i j) :=
    Finset.sum_pos (fun j _ => Real.exp_pos _) ⟨k, Finset.mem_univ k⟩
  rw [div_eq_div_iff (by positivity) (by positivity)]
  field_simp
  ring

/-- C1: log_prob returns, per row, the xlogy sum Σ_k xlogy(α_k − 1, y_k)
minus the multivariate log-beta of α = invlink(F) computed row-wise; for Y
rows strictly inside the open simplex and α > 0 it equals the reference
multivariate Dirichlet log-density. -/
theorem C1_log_prob {n K : ℕ} (L : Dirichlet) (F Y : Fin n → Fin K → ℝ) (i : Fin n) :
    L.log_prob F Y i =
      (∑ k, xlogy (L.invlink (F i k) - 1) (Y i k)) -
        lbeta (fun k => L.invlink (F i k)) ∧
    ((∀ k, 0 < Y i k) → (∑ k, Y i k) = 1 → (∀ k, 0 < L.invlink (F i k)) →
      L.log_prob F Y i = dirichlet_log_pdf_ref (fun k => L.invlink (F i k)) (Y i)) := by
  refine ⟨rfl, fun hy hsum hα => ?_⟩
  have hne : (Finset.univ : Finset (Fin K)).Nonempty := by
    rcases Nat.eq_zero_or_pos K with h0 | hpos
    · exfalso
      subst h0
      simp at hsum
    · exact ⟨⟨0, hpos⟩, Finset.mem_univ _⟩
  have hSsum : (0:ℝ) < ∑ k, L.invlink (F i k) :=
    Finset.sum_pos (fun k _ => hα k) hne
  have hGS : (0:ℝ) < Real.Gamma (∑ k, L.invlink (F i k)) :=
    Real.Gamma_pos_of_pos hSsum
  have hGk : ∀ k, (0:ℝ) < Real.Gamma (L.invlink (F i k)) :=
    fun k => Real.Gamma_pos_of_pos (hα k)
  have hprodG : (0:ℝ) < ∏ k, Real.Gamma (L.invlink (F i k)) :=
    Finset.prod_pos (fun k _ => hGk k)
  have hpowk : ∀ k, (0:ℝ) < Y i k ^ (L.invlink (F i k) - 1) :=
    fun k => Real.rpow_pos_of_pos (hy k) _
  have hprody : (0:ℝ) < ∏ k, Y i k ^ (L.invlink (F i k) - 1) :=
    Finset.prod_pos (fun k _ => hpowk k)
  unfold Dirichlet.log_prob Dirichlet.log_prob_static lbeta lgamma dirichlet_log_pdf_ref
  rw [Real.log_mul (ne_of_gt (div_pos hGS hprodG)) (ne_of_gt hprody),
    Real.log_div (ne_of_gt hGS) (ne_of_gt hprodG),
    Real.log_prod _ _ (fun k _ => ne_of_gt (hGk k)),
    Real.log_prod _ _ (fun k _ => ne_of_gt (hpowk k))]
  have hlog : ∀ k : Fin K,
      Real.log (Y i k ^ (L.invlink (F i k) - 1)) =
        (L.invlink (F i k) - 1) * Real.log (Y i k) :=
    fun k => Real.log_rpow (hy k) _
  rw [Finset.sum_congr rfl (fun k _ => hlog k)]
  simp only [xlogy_eq_mul_log]
  ring

/-- C1 witness: at K = 1, F = [0], Y = [1] with the default exponential link,
the hypotheses hold and log_prob equals the reference log-density. -/
theorem C1_log_prob_witness :
    (∀ k : Fin 1, (0:ℝ) < (fun (_ : Fin 1) (_ : Fin 1) => (1:ℝ)) 0 k) ∧
    (∑ k : Fin 1, (fun (_ : Fin 1) (_ : Fin 1) => (1:ℝ)) 0 k) = 1 ∧
    (∀ k : Fin 1,
      (0:ℝ) < Dirichlet.mkDefault.invlink ((fun (_ : Fin 1) (_ : Fin 1) => (0:ℝ)) 0 k)) ∧
    Dirichlet.mkDefault.log_prob (fun (_ : Fin 1) (_ : Fin 1) => (0:ℝ))
        (fun _ _ => 1) 0 =
      dirichlet_log_pdf_ref
        (fun k => Dirichlet.mkDefault.invlink ((fun (_ : Fin 1) (_ : Fin 1) => (0:ℝ)) 0 k))
        ((fun (_ : Fin 1) (_ : Fin 1) => (1:ℝ)) 0) := by
  have h1 : ∀ k : Fin 1, (0:ℝ) < (fun (_ : Fin 1) (_ : Fin 1) => (1:ℝ)) 0 k :=
    fun k => one_pos
  have h2 : (∑ k : Fin 1, (fun (_ : Fin 1) (_ : Fin 1) => (1:ℝ)) 0 k) = 1 := by simp
  have h3 : ∀ k : Fin 1,
      (0:ℝ) < Dirichlet.mkDefault.invlink ((fun (_ : Fin 1) (_ : Fin 1) => (0:ℝ)) 0 k) :=
    fun k => Real.exp_pos 0
  exact ⟨h1, h2, h3,
    (C1_log_prob Dirichlet.mkDefault (fun _ _ => 0) (fun _ _ => 1) 0).2 h1 h2 h3⟩

/-- C2: at a coordinate with y_k = 0 and α_k = invlink(F)_k = 1, the xlogy
term is exactly 0 (the 0 · log 0 convention), and log_prob decomposes as the
sum over the remaining coordinates minus the log-beta term, a well-defined
real number. -/
theorem C2_xlogy_zero_coordinate {n K : ℕ} (L : Dirichlet) (F Y : Fin n → Fin K → ℝ)
    (i : Fin n) (k : Fin K) (_hy : Y i k = 0) (hα : L.invlink (F i k) = 1) :
    xlogy (L.invlink (F i k) - 1) (Y i k) = 0 ∧
    L.log_prob F Y i =
      (∑ j ∈ Finset.univ.erase k, xlogy (L.invlink (F i j) - 1) (Y i j)) -
        lbeta (fun j => L.invlink (F i j)) := by
  have h0 : xlogy (L.invlink (F i k) - 1) (Y i k) = 0 := by
    rw [hα]
    simp [xlogy]
  refine ⟨h0, ?_⟩
  unfold Dirichlet.log_prob Dirichlet.log_prob_static
  rw [← Finset.add_sum_erase _ _ (Finset.mem_univ k), h0, zero_add]

/-- C2 witness: at K = 1, F = [0] (so α = [1]) and Y = [0], the hypotheses
hold, the xlogy term is 0, and log_prob is the finite value −lbeta([1]). -/
theorem C2_xlogy_zero_coordinate_witness :
    (fun (_ : Fin 1) (_ : Fin 1) => (0:ℝ)) 0 0 = 0 ∧
    Dirichlet.mkDefault.invlink ((fun (_ : Fin 1) (_ : Fin 1) => (0:ℝ)) 0 0) = 1 ∧
    (xlogy (Dirichlet.mkDefault.invlink ((fun (_ : Fin 1) (_ : Fin 1) => (0:ℝ)) 0 0) - 1)
        ((fun (_ : Fin 1) (_ : Fin 1) => (0:ℝ)) 0 0) = 0 ∧
      Dirichlet.mkDefault.log_prob (fun (_ : Fin 1) (_ : Fin 1) => (0:ℝ))
          (fun _ _ => 0) 0 =
        (∑ j ∈ Finset.univ.erase (0 : Fin 1),
            xlogy (Dirichlet.mkDefault.invlink ((fun (_ : Fin 1) (_ : Fin 1) => (0:ℝ)) 0 j) - 1)
              ((fun (_ : Fin 1) (_ : Fin 1) => (0:ℝ)) 0 j)) -
          lbeta (fun j =>
            Dirichlet.mkDefault.invlink ((fun (_ : Fin 1) (_ : Fin 1) => (0:ℝ)) 0 j))) := by
  have hα : Dirichlet.mkDefault.invlink ((fun (_ : Fin 1) (_ : Fin 1) => (0:ℝ)) 0 0) = 1 :=
    Real.exp_zero
  exact ⟨rfl, hα,
    C2_xlogy_zero_coordinate Dirichlet.mkDefault (fun _ _ => 0) (fun _ _ => 0) 0 0 rfl hα⟩

/-- C3 counterexample: the claim "every entry lies in (0,1)" fails at K = 1
(the single entry is exactly 1), and "every output row sums to 1" fails at
K = 0 (the empty row sums to 0). -/
theorem C3_counterexample :
    Dirichlet.mkDefault.conditional_mean (fun (_ : Fin 1) (_ : Fin 1) => (0:ℝ)) 0 0 = 1 ∧
    (1:ℝ) ∉ Set.Ioo (0:ℝ) 1 ∧
    (∑ k, Dirichlet.mkDefault.conditional_mean
        (fun (_ : Fin 1) (k : Fin 0) => k.elim0) 0 k) = 0 ∧
    (0:ℝ) ≠ 1 := by
  refine ⟨?_, ?_, ?_, ?_⟩
  · simp [Dirichlet.mkDefault, Dirichlet.init, Dirichlet.conditional_mean]
  · simp
  · simp
  · norm_num

/-- C3 (amended): conditional_mean computes α = invlink(F) and returns
α / row-sum(α) elementwise; with the default exponential link every output
row sums to 1 whenever K ≥ 1, and every entry lies in (0,1) whenever K ≥ 2
(for K = 1 the single entry equals 1). -/
theorem C3_conditional_mean {n K : ℕ} (F : Fin n → Fin K → ℝ) (i : Fin n) :
    (∀ k, Dirichlet.mkDefault.conditional_mean F i k =
      Real.exp (F i k) / ∑ j, Real.exp (F i j)) ∧
    (0 < K → ∑ k, Dirichlet.mkDefault.conditional_mean F i k = 1) ∧
    (2 ≤ K → ∀ k, Dirichlet.mkDefault.conditional_mean F i k ∈ Set.Ioo (0:ℝ) 1) := by
  refine ⟨fun k => rfl, ?_, ?_⟩
  · intro hK
    have hS : (0:ℝ) < ∑ j, Real.exp (F i j) :=
      Finset.sum_pos (fun j _ => Real.exp_pos _)
        ⟨⟨0, hK⟩, Finset.mem_univ _⟩
    simp only [Dirichlet.mkDefault, Dirichlet.init, Dirichlet.conditional_mean]
    rw [← Finset.sum_div]
    exact div_self (ne_of_gt hS)
  · intro hK k
    have hS : (0:ℝ) < ∑ j, Real.exp (F i j) :=
      Finset.sum_pos (fun j _ => Real.exp_pos _) ⟨k, Finset.mem_univ _⟩
    have hlt : Real.exp (F i k) < ∑ j, Real.exp (F i j) := by
      rw [← Finset.add_sum_erase _ _ (Finset.mem_univ k)]
      have hcard : 0 < (Finset.univ.erase k).card := by
        rw [Finset.card_erase_of_mem (Finset.mem_univ k), Finset.card_univ,
          Fintype.card_fin]
        omega
      have hrest : (0:ℝ) < ∑ j ∈ Finset.univ.erase k, Real.exp (F i j) :=
        Finset.sum_pos (fun j _ => Real.exp_pos _) (Finset.card_pos.mp hcard)
      linarith
    constructor
    · exact div_pos (Real.exp_pos _) hS
    · exact (div_lt_one hS).mpr hlt

/-- C3 (amended) witness: at K = 2, F = [0,0], the hypotheses 0 < K and
2 ≤ K hold, the row sums to 1 and every entry lies in (0,1). -/
theorem C3_conditional_mean_witness :
    0 < 2 ∧ 2 ≤ 2 ∧
    (∑ k, Dirichlet.mkDefault.conditional_mean
        (fun (_ : Fin 1) (_ : Fin 2) => (0:ℝ)) 0 k) = 1 ∧
    (∀ k, Dirichlet.mkDefault.conditional_mean
        (fun (_ : Fin 1) (_ : Fin 2) => (0:ℝ)) 0 k ∈ Set.Ioo (0:ℝ) 1) :=
  ⟨by norm_num, by norm_num,
    (C3_conditional_mean (fun _ _ => 0) 0).2.1 (by norm_num),
    (C3_conditional_mean (fun _ _ => 0) 0).2.2 (by norm_num)⟩

/-- C7: _sample_dir divides the table of Gamma(α_k, 1) draws by its row sums,
so (with the draws modelled as an abstract strictly positive function of the
concentration and the consumed seed) every returned row sums to 1, and two
calls with the same concentration and the same explicit seed return identical
results whatever the ambient generator state. -/
theorem C7_sample_dir {n K : ℕ}
    (gamma_sample : (Fin K → ℝ) → ℕ → Fin n → Fin K → ℝ)
    (concentration : Fin K → ℝ) (state : ℕ) (seed : Option ℕ)
    (hK : 0 < K)
    (hpos : ∀ s i k, 0 < gamma_sample concentration s i k) :
    (∀ i, ∑ k, Dirichlet.sample_dir gamma_sample concentration state seed i k = 1) ∧
    (∀ state2 s,
      Dirichlet.sample_dir gamma_sample concentration state (some s) =
        Dirichlet.sample_dir gamma_sample concentration state2 (some s)) := by
  constructor
  · intro i
    have hS : (0:ℝ) <
        ∑ j, gamma_sample concentration (resolve_seed state seed) i j :=
      Finset.sum_pos (fun j _ => hpos _ i j) ⟨⟨0, hK⟩, Finset.mem_univ _⟩
    unfold Dirichlet.sample_dir
    rw [← Finset.sum_div]
    exact div_self (ne_of_gt hS)
  · intro state2 s
    rfl

/-- C7 witness: K = 1, n = 1, with the constant-1 positive draw function,
the row sums to 1 and the two explicitly seeded calls agree. -/
theorem C7_sample_dir_witness :
    0 < 1 ∧
    (∀ (s : ℕ) (i k : Fin 1),
      (0:ℝ) < (fun (_ : Fin 1 → ℝ) (_ : ℕ) (_ : Fin 1) (_ : Fin 1) => (1:ℝ))
        (fun _ => 1) s i k) ∧
    (∀ i, ∑ k, Dirichlet.sample_dir
        (fun (_ : Fin 1 → ℝ) (_ : ℕ) (_ : Fin 1) (_ : Fin 1) => (1:ℝ))
        (fun _ => 1) 0 none i k = 1) ∧
    (∀ state2 s,
      Dirichlet.sample_dir
          (fun (_ : Fin 1 → ℝ) (_ : ℕ) (_ : Fin 1) (_ : Fin 1) => (1:ℝ))
          (fun _ => 1) 0 (some s) =
        Dirichlet.sample_dir
          (fun (_ : Fin 1 → ℝ) (_ : ℕ) (_ : Fin 1) (_ : Fin 1) => (1:ℝ))
          (fun _ => 1) state2 (some s)) := by
  have hK : 0 < 1 := by norm_num
  have hpos : ∀ (s : ℕ) (i k : Fin 1),
      (0:ℝ) < (fun (_ : Fin 1 → ℝ) (_ : ℕ) (_ : Fin 1) (_ : Fin 1) => (1:ℝ))
        (fun _ => 1) s i k := fun _ _ _ => one_pos
  exact ⟨hK, hpos,
    (C7_sample_dir _ (fun _ => 1) 0 none hK hpos).1,
    fun state2 s => (C7_sample_dir _ (fun _ => 1) 0 none hK hpos).2 state2 s⟩

/-- C10: with the default exponential link, conditional_mean is invariant
under adding a common constant to every latent coordinate, while
conditional_variance and log_prob are not (witnessed at F = 0, c = log 2,
K = 2, Y = [1/2, 1/2]). -/
theorem C10_mean_shift_invariance :
    (∀ (n K : ℕ) (F : Fin n → Fin K → ℝ) (c : ℝ),
      Dirichlet.mkDefault.conditional_mean (fun i k => F i k + c) =
        Dirichlet.mkDefault.conditional_mean F) ∧
    Dirichlet.mkDefault.conditional_variance
        (fun (i : Fin 1) (k : Fin 2) =>
          (fun (_ : Fin 1) (_ : Fin 2) => (0:ℝ)) i k + Real.log 2) 0 0 ≠
      Dirichlet.mkDefault.conditional_variance
        (fun (_ : Fin 1) (_ : Fin 2) => (0:ℝ)) 0 0 ∧
    Dirichlet.mkDefault.log_prob
        (fun (i : Fin 1) (k : Fin 2) =>
          (fun (_ : Fin 1) (_ : Fin 2) => (0:ℝ)) i k + Real.log 2)
        (fun _ _ => 1 / 2) 0 ≠
      Dirichlet.mkDefault.log_prob
        (fun (_ : Fin 1) (_ : Fin 2) => (0:ℝ)) (fun _ _ => 1 / 2) 0 := by
  have e2 : Real.exp ((0:ℝ) + Real.log 2) = 2 := by
    rw [zero_add, Real.exp_log]
    norm_num
  refine ⟨?_, ?_, ?_⟩
  · intro n K F c
    funext i k
    simp only [Dirichlet.mkDefault, Dirichlet.init, Dirichlet.conditional_mean,
      Real.exp_add]
    rw [← Finset.sum_mul, mul_div_mul_right _ _ (Real.exp_ne_zero c)]
  · simp only [Dirichlet.mkDefault, Dirichlet.init, Dirichlet.conditional_variance,
      e2, Real.exp_zero, Finset.sum_const, Finset.card_univ, Fintype.card_fin,
      nsmul_eq_mul]
    norm_num
  · simp only [Dirichlet.mkDefault, Dirichlet.init, Dirichlet.log_prob,
      Dirichlet.log_prob_static, e2, Real.exp_zero, lbeta, lgamma]
    have hsum : (∑ _k : Fin 2, (2:ℝ)) = 4 := by
      simp [Finset.sum_const]
      norm_num
    have hsum1 : (∑ _k : Fin 2, (1:ℝ)) = 2 := by
      simp [Finset.sum_const]
    rw [hsum, hsum1, Gamma_ofNat_two, Gamma_ofNat_four, Real.Gamma_one]
    simp only [xlogy, Finset.sum_const, Finset.card_univ, Fintype.card_fin,
      nsmul_eq_mul]
    norm_num
    have hhalf : Real.log ((1:ℝ) / 2) = - Real.log 2 := by
      rw [one_div, Real.log_inv]
    have h4 : Real.log 4 = 2 * Real.log 2 := by
      rw [show (4:ℝ) = 2 ^ 2 by norm_num, Real.log_pow]
      norm_num
    have h46 : Real.log 4 < Real.log 6 := Real.log_lt_log (by norm_num) (by norm_num)
    intro h
    rw [hhalf] at h
    linarith

end DirichletSVGP
